import Mathlib

/-!
Verification of the `image-match` perceptual-signature library (`src/lib.rs`).

The Rust source is shallowly embedded below.  Machine integers are modelled
as `ℕ`/`ℤ`; `f32` values are modelled exactly as rational numbers together
with an explicit IEEE-754 binary32 round-to-nearest-even operation
(`round32`), valid on the normal range, which covers every value this
program produces.  Fallible operations (out-of-bounds indexing, `unwrap`,
failed assertions, arithmetic overflow, non-termination of a loop) are
modelled with `Except RErr`.

Because the `Rat.add/mul/inv/sub` operations of the standard library are
marked irreducible (which blocks kernel evaluation by `decide`), the
embedding computes with equivalent `mkRat`-based operations `qadd`, `qmul`,
`qdiv`, `qsub`, `qpow2`; bridge lemmas identify them with the ordinary
field operations of `ℚ` for symbolic reasoning.
-/

namespace ImageMatch

/-- Error outcomes of the embedded Rust code: `oob` models an out-of-bounds
index (or a `usize` subtraction overflow), `diverge` a provably infinite
loop, `unwrapFail` an `Option::unwrap` on `None`, `assertFail` a failed
`assert_eq!`, and `overflow` a signed-integer overflow (which aborts a
debug build). -/
inductive RErr where
  | oob
  | diverge
  | unwrapFail
  | assertFail
  | overflow
deriving DecidableEq, Repr

instance {ε α : Type} [DecidableEq ε] [DecidableEq α] : DecidableEq (Except ε α) := fun a b =>
  match a, b with
  | .ok x, .ok y =>
      if h : x = y then .isTrue (by rw [h]) else .isFalse (by intro hc; cases hc; exact h rfl)
  | .error x, .error y =>
      if h : x = y then .isTrue (by rw [h]) else .isFalse (by intro hc; cases hc; exact h rfl)
  | .ok _, .error _ => .isFalse (by intro hc; cases hc)
  | .error _, .ok _ => .isFalse (by intro hc; cases hc)

/-- Kernel-computable addition on `ℚ` (the library `Rat.add` is irreducible). -/
def qadd (a b : ℚ) : ℚ := mkRat (a.num * b.den + b.num * a.den) (a.den * b.den)

/-- Kernel-computable multiplication on `ℚ`. -/
def qmul (a b : ℚ) : ℚ := mkRat (a.num * b.num) (a.den * b.den)

/-- Kernel-computable inverse on `ℚ` (with `qinv 0 = 0`). -/
def qinv (b : ℚ) : ℚ := mkRat (if 0 ≤ b.num then (b.den : ℤ) else -(b.den : ℤ)) b.num.natAbs

/-- Kernel-computable division on `ℚ`. -/
def qdiv (a b : ℚ) : ℚ := qmul a (qinv b)

/-- Kernel-computable subtraction on `ℚ`. -/
def qsub (a b : ℚ) : ℚ := qadd a (-b)

/-- Kernel-computable `(2 : ℚ) ^ (e : ℤ)`. -/
def qpow2 (e : ℤ) : ℚ := if 0 ≤ e then mkRat (2 ^ e.toNat) 1 else mkRat 1 (2 ^ (-e).toNat)

theorem qadd_eq (a b : ℚ) : qadd a b = a + b := by
  have ha : ((a.den : ℚ)) ≠ 0 := by exact_mod_cast a.den_nz
  have hb : ((b.den : ℚ)) ≠ 0 := by exact_mod_cast b.den_nz
  rw [qadd, Rat.mkRat_eq_div]
  conv_rhs => rw [← Rat.num_div_den a, ← Rat.num_div_den b]
  rw [div_add_div _ _ ha hb]
  push_cast
  ring_nf

theorem qmul_eq (a b : ℚ) : qmul a b = a * b := by
  rw [qmul, Rat.mkRat_eq_div]
  conv_rhs => rw [← Rat.num_div_den a, ← Rat.num_div_den b]
  rw [div_mul_div_comm]
  push_cast
  ring_nf

theorem qinv_eq (b : ℚ) : qinv b = b⁻¹ := by
  have hd : ((b.den : ℚ)) ≠ 0 := by exact_mod_cast b.den_nz
  rw [qinv, Rat.mkRat_eq_div]
  rcases le_or_lt 0 b.num with h | h
  · rw [if_pos h]
    conv_rhs => rw [← Rat.num_div_den b]
    rw [inv_div]
    congr 1
    rw [Int.cast_natAbs, abs_of_nonneg h]
  · rw [if_neg (not_le.mpr h)]
    conv_rhs => rw [← Rat.num_div_den b]
    rw [inv_div]
    have hna : ((b.num.natAbs : ℚ)) = -((b.num : ℤ) : ℚ) := by
      rw [Int.cast_natAbs, abs_of_nonpos (le_of_lt h)]
      push_cast
      ring
    rw [Int.cast_neg, hna, neg_div_neg_eq]
    norm_cast

theorem qdiv_eq (a b : ℚ) : qdiv a b = a / b := by
  rw [qdiv, qmul_eq, qinv_eq, div_eq_mul_inv]

theorem qsub_eq (a b : ℚ) : qsub a b = a - b := by
  rw [qsub, qadd_eq, sub_eq_add_neg]

theorem qpow2_eq (e : ℤ) : qpow2 e = (2 : ℚ) ^ e := by
  rw [qpow2]
  split
  · rw [Rat.mkRat_eq_div]
    push_cast
    rw [div_one, ← zpow_natCast]
    congr 1
    omega
  · rw [Rat.mkRat_eq_div]
    push_cast
    rw [← zpow_natCast, one_div, ← zpow_neg]
    congr 1
    omega

/-- Truncation toward zero, the semantics of Rust's float-to-integer `as` casts. -/
def truncQ (q : ℚ) : ℤ := if q < 0 then ⌈q⌉ else ⌊q⌋

/-- Round a rational to the nearest integer, ties to even (the IEEE-754
default rounding applied to a significand). -/
def rne (q : ℚ) : ℤ :=
  let n := ⌊q⌋
  let f := qsub q (n : ℚ)
  if mkRat 1 2 < f then n + 1
  else if f < mkRat 1 2 then n
  else if n % 2 = 0 then n else n + 1

/-- Fuel-driven search for the binary exponent of a positive rational:
the largest `e` (starting from 127 and descending) with `2 ^ e ≤ q`. -/
def expGo (q : ℚ) : ℤ → ℕ → ℤ
  | e, 0 => e
  | e, fuel + 1 => if qpow2 e ≤ q then e else expGo q (e - 1) fuel

/-- Binary exponent of a positive rational in the IEEE binary32 normal range. -/
def findExp (q : ℚ) : ℤ := expGo q 127 300

/-- Binary32 rounding of a positive rational: scale to a 24-bit significand,
round to nearest (ties to even) and scale back. -/
def round32pos (q : ℚ) : ℚ :=
  let e := findExp q
  qmul ((rne (qmul q (qpow2 (23 - e))) : ℤ) : ℚ) (qpow2 (e - 23))

/-- IEEE-754 binary32 round-to-nearest-even, modelled exactly on `ℚ`.
Valid on the normal range (no subnormals, no overflow to infinity), which
contains every value computed by this program. -/
def round32 (q : ℚ) : ℚ :=
  if q = 0 then 0
  else if q < 0 then -(round32pos (-q))
  else round32pos q

/-- Rust's saturating `as u8` cast applied to a (nonnegative) `f32`:
truncate toward zero and clamp into `0..=255`. -/
def satU8 (q : ℚ) : ℕ := if q ≤ 0 then 0 else min 255 ⌊q⌋.toNat

theorem rne_intCast (k : ℤ) : rne ((k : ℤ) : ℚ) = k := by
  rw [rne]
  simp only [Int.floor_intCast, qsub_eq, sub_self]
  have h1 : ¬ (mkRat 1 2 < (0 : ℚ)) := by
    rw [Rat.mkRat_eq_div]
    norm_num
  have h2 : (0 : ℚ) < mkRat 1 2 := by
    rw [Rat.mkRat_eq_div]
    norm_num
  rw [if_neg h1, if_pos h2]

theorem expGo_spec (q : ℚ) (hq : 0 < q) :
    ∀ (fuel : ℕ) (e : ℤ), q < (2 : ℚ) ^ (e + 1) → (2 : ℚ) ^ (e - fuel) ≤ q →
      (2 : ℚ) ^ (expGo q e fuel) ≤ q ∧ q < (2 : ℚ) ^ (expGo q e fuel + 1) := by
  intro fuel
  induction fuel with
  | zero =>
      intro e h1 h2
      rw [expGo]
      exact ⟨by simpa using h2, h1⟩
  | succ n ih =>
      intro e h1 h2
      rw [expGo, qpow2_eq]
      split
      · exact ⟨by assumption, h1⟩
      · refine ih (e - 1) ?_ ?_
        · have : ¬ ((2:ℚ) ^ e ≤ q) := by assumption
          rw [sub_add_cancel]
          exact lt_of_not_le this
        · have h3 : e - ((n : ℤ) + 1) = e - 1 - n := by ring
          have h4 := h2
          push_cast at h4
          rw [h3] at h4
          exact h4

theorem findExp_spec (q : ℚ) (hq : 0 < q) (hup : q < (2 : ℚ) ^ (128 : ℤ))
    (hlo : (2 : ℚ) ^ (-173 : ℤ) ≤ q) :
    (2 : ℚ) ^ (findExp q) ≤ q ∧ q < (2 : ℚ) ^ (findExp q + 1) := by
  rw [findExp]
  exact expGo_spec q hq 300 127 (by norm_num at hup ⊢; exact hup)
    (by norm_num at hlo ⊢; exact hlo)

theorem round32_zero : round32 0 = 0 := by rw [round32]; simp

theorem round32_natCast (n : ℕ) (h : n ≤ 2 ^ 23) : round32 ((n : ℕ) : ℚ) = n := by
  rcases Nat.eq_zero_or_pos n with h0 | h0
  · subst h0; simpa using round32_zero
  have hq : (0 : ℚ) < n := by exact_mod_cast h0
  rw [round32, if_neg (by positivity), if_neg (not_lt.mpr (by positivity)), round32pos]
  have hup : ((n : ℕ) : ℚ) < (2 : ℚ) ^ (128 : ℤ) := by
    calc ((n : ℕ) : ℚ) ≤ ((2 ^ 23 : ℕ) : ℚ) := by exact_mod_cast h
    _ < (2 : ℚ) ^ (128 : ℤ) := by norm_num
  have hlo : (2 : ℚ) ^ (-173 : ℤ) ≤ ((n : ℕ) : ℚ) := by
    calc (2 : ℚ) ^ (-173 : ℤ) ≤ 1 := by norm_num
    _ ≤ ((n : ℕ) : ℚ) := by exact_mod_cast h0
  obtain ⟨hle, hlt⟩ := findExp_spec _ hq hup hlo
  set e := findExp ((n : ℕ) : ℚ) with he
  have he0 : 0 ≤ e := by
    by_contra hc
    push_neg at hc
    have h1 : e + 1 ≤ 0 := by omega
    have : (2 : ℚ) ^ (e + 1) ≤ (2 : ℚ) ^ (0 : ℤ) := by
      exact zpow_le_zpow_right₀ (by norm_num) h1
    have h2 : ((n : ℕ) : ℚ) < 1 := by
      calc ((n : ℕ) : ℚ) < (2 : ℚ) ^ (e + 1) := hlt
      _ ≤ (2 : ℚ) ^ (0 : ℤ) := this
      _ = 1 := by norm_num
    have : (1 : ℚ) ≤ n := by exact_mod_cast h0
    linarith
  have he23 : e ≤ 23 := by
    by_contra hc
    push_neg at hc
    have h1 : (24 : ℤ) ≤ e := by omega
    have : (2 : ℚ) ^ (24 : ℤ) ≤ (2 : ℚ) ^ e := zpow_le_zpow_right₀ (by norm_num) h1
    have h2 : ((n : ℕ) : ℚ) ≤ ((2 ^ 23 : ℕ) : ℚ) := by exact_mod_cast h
    have h3 : ((2 ^ 23 : ℕ) : ℚ) < (2 : ℚ) ^ (24 : ℤ) := by norm_num
    linarith
  set k := (23 - e).toNat with hk
  have hkk : (k : ℤ) = 23 - e := by omega
  have hm : qmul ((n : ℕ) : ℚ) (qpow2 (23 - e)) = ((n * 2 ^ k : ℕ) : ℚ) := by
    rw [qmul_eq, qpow2_eq, ← hkk]
    push_cast
    rw [zpow_natCast]
  rw [hm, show ((n * 2 ^ k : ℕ) : ℚ) = (((n * 2 ^ k : ℕ) : ℤ) : ℚ) by push_cast; ring,
    rne_intCast, qmul_eq, qpow2_eq]
  push_cast
  rw [mul_assoc, ← zpow_natCast (2 : ℚ) k, ← zpow_add₀ (by norm_num : (2:ℚ) ≠ 0)]
  rw [show (k : ℤ) + (e - 23) = 0 by omega]
  norm_num

theorem round32_one : round32 1 = 1 := by
  have := round32_natCast 1 (by norm_num)
  simpa using this

/-- Error-propagating map over a list, modelling a Rust `for` loop that
pushes one result per element and aborts on the first failure. -/
def emapM {α β : Type} (f : α → Except RErr β) : List α → Except RErr (List β)
  | [] => .ok []
  | a :: l => do
      let b ← f a
      let r ← emapM f l
      .ok (b :: r)

/-- Discriminator of `Except` outcomes. -/
def isOkE {α : Type} : Except RErr α → Bool
  | .ok _ => true
  | .error _ => false

/-- Value of an `ok` outcome, with a default for errors. -/
def valOf {α : Type} (d : α) : Except RErr α → α
  | .ok a => a
  | .error _ => d

/-- First-match association-list lookup, the semantics of `HashMap::get`
for the maps built by this program (their keys are pairwise distinct). -/
def lookupKey {β : Type} (l : List ((ℤ × ℤ) × β)) (k : ℤ × ℤ) : Option β :=
  match l with
  | [] => none
  | (k', v) :: rest => if k = k' then some v else lookupKey rest k

/--
Source (`pixel_gray`):
```
fn pixel_gray(r: u8, g: u8, b: u8, a: u8) -> u8 {
    let rgb_avg = (r as u16 + g as u16 + b as u16) / 3;
    ((rgb_avg as f32) * (a as f32 / 255.0)) as u8
}
```
The `u16` average cannot overflow; the integer-to-`f32` conversions round
(they are exact for values below `2^24`, which always holds here), the
division and multiplication round once each, `as u8` truncates and clamps.
-/
def pixel_gray (r g b a : ℕ) : ℕ :=
  let rgb_avg : ℕ := (r + g + b) / 3
  satU8 (round32 (qmul (round32 ((rgb_avg : ℕ) : ℚ))
    (round32 (qdiv (round32 ((a : ℕ) : ℚ)) (round32 ((255 : ℕ) : ℚ))))))

/-- One row of `grayscale_buffer`: consume `w` pixels of 4 bytes each from
the front of the buffer, return the grayscale row and the remaining bytes.
Fewer than 4 remaining bytes means the source indexes `rgba_buffer[idx+k]`
out of bounds. -/
def grayRow : List ℕ → ℕ → Except RErr (List ℕ × List ℕ)
  | buf, 0 => .ok ([], buf)
  | r :: g :: b :: a :: rest, w + 1 => do
      let (row, rest') ← grayRow rest w
      .ok (pixel_gray r g b a :: row, rest')
  | _, _ + 1 => .error .oob

/-- The outer `while idx < rgba_buffer.len()` loop of `grayscale_buffer`.
Each iteration consumes `4 * width ≥ 4` bytes, so `buf.length + 1` rows of
fuel suffice; the fuel-exhaustion branch is unreachable (the `width = 0`
case, in which the source loops forever, is handled by the caller). -/
def grayGo (width : ℕ) : List ℕ → ℕ → Except RErr (List (List ℕ))
  | _, 0 => .error .diverge
  | [], _ + 1 => .ok []
  | buf, fuel + 1 => do
      let (row, rest) ← grayRow buf width
      let rows ← grayGo width rest fuel
      .ok (row :: rows)

/--
Source (`grayscale_buffer`): walks `idx` over the buffer, reading
`width` RGBA pixels per row.  With `width == 0` and a non-empty buffer the
source's outer loop never advances `idx` and runs forever; this is modelled
by the explicit `diverge` branch.
-/
def grayscale_buffer (buf : List ℕ) (width : ℕ) : Except RErr (List (List ℕ)) :=
  if width = 0 ∧ buf ≠ [] then .error .diverge
  else grayGo width buf (buf.length + 1)

/-- The crop rectangle, in pixel coordinates of the grayscale grid. -/
structure Bounds where
  lower_x : ℕ
  upper_x : ℕ
  lower_y : ℕ
  upper_y : ℕ
deriving DecidableEq

/-- `u8::abs_diff`, as an integer. -/
def absDiff (a b : ℕ) : ℤ := ((a : ℤ) - (b : ℤ)).natAbs

/-- The `while sum < threshold { sum += diff_sums[lower]; lower += 1 }`
walk of `get_bounds`.  Running past the end of the list is an
out-of-bounds index.  Fuel `ds.length + 1` is always sufficient: the walk
either stops or errors after at most `ds.length + 1` probes. -/
def walkLow (ds : List ℤ) (t : ℤ) : ℕ → ℤ → ℕ → Except RErr ℕ
  | 0, _, _ => .error .diverge
  | fuel + 1, sum, i =>
      if sum < t then
        match ds.get? i with
        | some v => walkLow ds t fuel (sum + v) (i + 1)
        | none => .error .oob
      else .ok i

/-- The downward walk of `get_bounds` (`upper -= 1`).  Decrementing the
`usize` index below zero is an arithmetic-overflow abort, modelled as
`oob`. -/
def walkUp (ds : List ℤ) (t : ℤ) : ℕ → ℤ → ℕ → Except RErr ℕ
  | 0, _, _ => .error .diverge
  | fuel + 1, sum, i =>
      if sum < t then
        match ds.get? i with
        | some v => if i = 0 then .error .oob else walkUp ds t fuel (sum + v) (i - 1)
        | none => .error .oob
      else .ok i

/--
Source (`get_bounds`): computes `threshold = (total_diff_sum as f32 * crop)
as i32` (an `i32`-to-`f32` conversion, one `f32` multiplication, and a
truncating cast), then walks from both ends.  On an empty list the source
evaluates `diff_sums.len() - 1`, a `usize` subtraction overflow. -/
def get_bounds (ds : List ℤ) (crop : ℚ) : Except RErr (ℕ × ℕ) :=
  if ds.length = 0 then .error .oob
  else
    let total : ℤ := ds.sum
    let threshold : ℤ := truncQ (round32 (qmul (round32 ((total : ℤ) : ℚ)) crop))
    do
      let lower ← walkLow ds threshold (ds.length + 1) 0 0
      let upper ← walkUp ds threshold (ds.length + 1) 0 (ds.length - 1)
      .ok (lower, upper)

/-- Per-row activity: sum of absolute differences of horizontally adjacent
pixels (`pixels[y][x].abs_diff(pixels[y][x-1])` for `x` in `1..row_len`). -/
def rowDiffSums (pixels : List (List ℕ)) : List ℤ :=
  pixels.map (fun row =>
    ((List.range' 1 (row.length - 1)).map
      (fun x => absDiff (row.getD x 0) (row.getD (x - 1) 0))).sum)

/-- Per-column activity: for `x` in `0..pixels[0].len()`, sum of absolute
differences of vertically adjacent pixels.  The grayscale grids fed to this
function are rectangular, so the `getD` defaults are never taken. -/
def colDiffSums (pixels : List (List ℕ)) : List ℤ :=
  (List.range ((pixels.getD 0 []).length)).map (fun x =>
    ((List.range' 1 (pixels.length - 1)).map
      (fun y => absDiff ((pixels.getD y []).getD x 0) ((pixels.getD (y - 1) []).getD x 0))).sum)

/-- Source (`crop_boundaries`): row bounds from row activity, then column
bounds from column activity. -/
def crop_boundaries (pixels : List (List ℕ)) (crop : ℚ) : Except RErr Bounds := do
  let (top, bottom) ← get_bounds (rowDiffSums pixels) crop
  let (left, right) ← get_bounds (colDiffSums pixels) crop
  .ok ⟨left, right, top, bottom⟩

/--
Source (`grid_points`): `x_width = (upper_x - lower_x) / grid_size` (usize
division), and each interior lattice point `(x, y)` with
`x, y ∈ 1..grid_size` is mapped to the pixel coordinate
`(x * x_width, y * y_width)` — the crop offset `lower_x`/`lower_y` is NOT
added.  Keys are the `i8` casts of `x` and `y`, injective for every grid
size at most 128 (all grid sizes considered in the claims); they are
modelled as integers. -/
def grid_points (b : Bounds) (gs : ℕ) : List ((ℤ × ℤ) × (ℕ × ℕ)) :=
  let x_width := (b.upper_x - b.lower_x) / gs
  let y_width := (b.upper_y - b.lower_y) / gs
  (List.range' 1 (gs - 1)).flatMap (fun (x : ℕ) =>
    (List.range' 1 (gs - 1)).map (fun (y : ℕ) =>
      (((x : ℤ), (y : ℤ)), ((x * x_width : ℕ), (y * y_width : ℕ)))))

/-- The custom `max` on `f32` of the source (`fn max(a: f32, b: f32)`). -/
def fmax (a b : ℚ) : ℚ := if a > b then a else b

/-- Read one grayscale pixel at signed coordinates.  In the source a
negative coordinate has already been wrapped to a huge `usize` by an
`as usize` cast, so any read outside the grid is an out-of-bounds panic. -/
def readPix (pixels : List (List ℕ)) (x y : ℤ) : Except RErr ℚ :=
  if y < 0 ∨ (pixels.length : ℤ) ≤ y then .error .oob
  else if x < 0 ∨ ((pixels.getD y.toNat []).length : ℤ) ≤ x then .error .oob
  else .ok (((pixels.getD y.toNat []).getD x.toNat 0 : ℕ) : ℚ)

/-- The nine offsets of the inner 3×3 box of `pixel_average`, in source
order. -/
def boxOffsets : List (ℤ × ℤ) :=
  [(-1, -1), (0, -1), (1, -1), (-1, 0), (0, 0), (1, 0), (-1, 1), (0, 1), (1, 1)]

/--
Source (`pixel_average`): the mean of the 3×3 box centred at `(x, y)`.
The `u8`-to-`f32` conversions are exact; the iterator `.sum()` adds the
values sequentially with one `f32` rounding per addition, and the final
division by `9.0` rounds once. -/
def pixel_average (pixels : List (List ℕ)) (x y : ℤ) : Except RErr ℚ := do
  let vals ← emapM (fun d => readPix pixels (x + d.1) (y + d.2)) boxOffsets
  .ok (round32 (qdiv (vals.foldl (fun acc v => round32 (qadd acc v)) 0) ((9 : ℕ) : ℚ)))

/-- The `(-square_edge..=square_edge)²` offset grid of `grid_averages`,
`delta_x` outer, `delta_y` inner, for `se ≥ 0`. -/
def seOffsets (se : ℤ) : List (ℤ × ℤ) :=
  (List.range (2 * se.toNat + 1)).flatMap (fun i =>
    (List.range (2 * se.toNat + 1)).map (fun j => (-se + (i : ℤ), -se + (j : ℤ))))

/-- The per-grid-point body of `grid_averages`: sum the `pixel_average`
box means over the offset square (one `f32` rounding per addition), divide
by the number of summands (`i32` product, exact conversion to `f32` for all
realistic sizes, one `f32` division rounding) and truncate to `u8`. -/
def pointAvg (pixels : List (List ℕ)) (se : ℤ) (px py : ℕ) : Except RErr ℕ := do
  let boxes ← emapM (fun d => pixel_average pixels ((px : ℤ) + d.1) ((py : ℤ) + d.2))
    (seOffsets se)
  let sum := boxes.foldl (fun acc v => round32 (qadd acc v)) 0
  .ok (satU8 (round32 (qdiv sum (round32 ((((se * 2 + 1) * (se * 2 + 1)).toNat : ℕ) : ℚ)))))

/--
The `square_edge` computation of `grid_averages`:
`(max(2.0, (0.5 + min(x_width, y_width) as f32 / 20.0).floor()) / 2.0) as i32`
(`0.5` and `2.0` are exact binary32 literals; the `usize`-to-`f32`
conversions, the two divisions and the addition each round once; `floor` on
a binary32 value is exact). -/
def squareEdge (b : Bounds) : ℤ :=
  let x_width := b.upper_x - b.lower_x
  let y_width := b.upper_y - b.lower_y
  truncQ (round32 (qdiv
    (fmax ((2 : ℕ) : ℚ)
      ((⌊round32 (qadd (mkRat 1 2) (round32 (qdiv (round32 ((min x_width y_width : ℕ) : ℚ))
        (round32 ((20 : ℕ) : ℚ)))))⌋ : ℤ) : ℚ))
    (round32 ((2 : ℕ) : ℚ))))

/-- The loop body of `grid_averages`: one map entry
`(grid_coord, smoothed average)`. -/
def gaPoint (pixels : List (List ℕ)) (b : Bounds) (p : (ℤ × ℤ) × (ℕ × ℕ)) :
    Except RErr ((ℤ × ℤ) × ℕ) :=
  (pointAvg pixels (squareEdge b) p.2.1 p.2.2).map (fun v => (p.1, v))

/--
Source (`grid_averages`): computes `square_edge` and then the smoothed
average at every grid point.  The iteration order over the `HashMap` of
points is unspecified in the source; here the map's entry list is taken in
the given order (see the order-independence theorem). -/
def grid_averages (pixels : List (List ℕ)) (pts : List ((ℤ × ℤ) × (ℕ × ℕ)))
    (b : Bounds) : Except RErr (List ((ℤ × ℤ) × ℕ)) :=
  emapM (gaPoint pixels b) pts

/-- Source (`compute_diff`): signed difference of two `u8` averages in
`i16` arithmetic (no overflow possible), collapsed to `0` when its absolute
value is at most 2. -/
def compute_diff (me other : ℕ) : ℤ :=
  let raw_result : ℤ := (me : ℤ) - (other : ℤ)
  if raw_result.natAbs ≤ 2 then 0 else raw_result

/-- Source (`get_median`): sort, then take the middle element (odd length),
the truncating `i16` average of the two middle elements (even length), or 0
(empty).  `Vec::sort` is modelled by insertion sort — both produce the
unique ascending reordering of a list of integers. -/
def get_median (vec : List ℤ) : ℤ :=
  let s := vec.insertionSort (· ≤ ·)
  if vec.length % 2 = 0 then
    if vec = [] then 0
    else Int.tdiv (s.getD (vec.length / 2 - 1) 0 + s.getD (vec.length / 2) 0) 2
  else s.getD (vec.length / 2) 0

/-- Source (`get_thresholds`): split the nonzero raw diffs into the
"darker" (negative) and "lighter" (positive) groups and take each group's
`get_median`. -/
def get_thresholds (raw_diffs : List (List ℤ)) : ℤ × ℤ :=
  let p := (raw_diffs.flatten.filter (fun d => d ≠ 0)).partition (fun d => d < 0)
  (get_median p.1, get_median p.2)

/-- Source (`collapse`): `±2` when `|val| ≥ |threshold|`, otherwise `±1`
(`signum`-scaled). -/
def collapse (val threshold : ℤ) : ℤ :=
  if threshold.natAbs ≤ val.natAbs then 2 * val.sign else val.sign

/-- The per-diff quantization step of `compute_signature`: positive diffs
are collapsed against the light threshold, negative diffs against the dark
threshold, zero stays zero. -/
def quantize (dark light v : ℤ) : ℤ :=
  if v > 0 then collapse v light
  else if v < 0 then collapse v dark
  else 0

/-- The eight neighbor offsets of `compute_signature`, in source order. -/
def nbrOffsets : List (ℤ × ℤ) :=
  [(-1, -1), (0, -1), (1, -1), (-1, 0), (1, 0), (-1, 1), (0, 1), (1, 1)]

/-- Lattice-point enumeration order of `compute_signature`: `grid_y` outer,
`grid_x` inner, both over `1..grid_size` (the `i8` cast of `grid_size` is
faithful for grid sizes at most 127, which covers all the claims). -/
def enumPts (gs : ℕ) : List (ℤ × ℤ) :=
  (List.range' 1 (gs - 1)).flatMap (fun gy =>
    (List.range' 1 (gs - 1)).map (fun gx => ((gx : ℤ), (gy : ℤ))))

/-- The raw 8-neighbor diff list of one lattice point: `unwrap` the point's
own average (a missing key aborts), then `filter_map` over the existing
neighbors. -/
def rawPointDiffs (avgs : List ((ℤ × ℤ) × ℕ)) (gc : ℤ × ℤ) : Except RErr (List ℤ) :=
  match lookupKey avgs gc with
  | none => .error .unwrapFail
  | some gray =>
      .ok (nbrOffsets.filterMap (fun d =>
        (lookupKey avgs (gc.1 + d.1, gc.2 + d.2)).map (fun other => compute_diff gray other)))

/-- Source (`compute_signature`): collect the raw diff lists in enumeration
order, derive the two adaptive thresholds, re-quantize every diff and
concatenate. -/
def compute_signature (avgs : List ((ℤ × ℤ) × ℕ)) (gs : ℕ) : Except RErr (List ℤ) := do
  let raw_diffs ← emapM (rawPointDiffs avgs) (enumPts gs)
  let t := get_thresholds raw_diffs
  .ok ((raw_diffs.map (fun ns => ns.map (quantize t.1 t.2))).flatten)

/-- Source (`compute_from_gray`), parameterized by the iteration order `σ`
in which the `HashMap` produced by `grid_points` is traversed by
`grid_averages` (the Rust `HashMap` iteration order is unspecified; any
permutation of the entries may occur). -/
def compute_from_gray_ord (gray : List (List ℕ)) (crop : ℚ) (gs : ℕ)
    (σ : List ((ℤ × ℤ) × (ℕ × ℕ)) → List ((ℤ × ℤ) × (ℕ × ℕ))) : Except RErr (List ℤ) := do
  let bounds ← crop_boundaries gray crop
  let points := grid_points bounds gs
  let averages ← grid_averages gray (σ points) bounds
  compute_signature averages gs

/-- Source (`compute_from_gray`), with the canonical entry order. -/
def compute_from_gray (gray : List (List ℕ)) (crop : ℚ) (gs : ℕ) : Except RErr (List ℤ) :=
  compute_from_gray_ord gray crop gs id

/-- The `f32` literal `0.05`, the default crop fraction. -/
def DEFAULT_CROP : ℚ := round32 (mkRat 1 20)

/-- The default grid size. -/
def DEFAULT_GRID_SIZE : ℕ := 10

/-- Source (`get_buffer_signature`): grayscale, then the default-tuned
pipeline. -/
def get_buffer_signature (buf : List ℕ) (width : ℕ) : Except RErr (List ℤ) := do
  let gray ← grayscale_buffer buf width
  compute_from_gray gray DEFAULT_CROP DEFAULT_GRID_SIZE

/-- `get_buffer_signature` with an explicit `HashMap` iteration order. -/
def get_buffer_signature_ord (buf : List ℕ) (width : ℕ)
    (σ : List ((ℤ × ℤ) × (ℕ × ℕ)) → List ((ℤ × ℤ) × (ℕ × ℕ))) : Except RErr (List ℤ) := do
  let gray ← grayscale_buffer buf width
  compute_from_gray_ord gray DEFAULT_CROP DEFAULT_GRID_SIZE σ

/-- Checked `i8` multiplication: the source multiplies `i8` values before
widening to `f64`; a product outside `-128..=127` overflows (aborting a
debug build). -/
def i8mul (a b : ℤ) : Except RErr ℤ :=
  let p := a * b
  if p < -128 ∨ 127 < p then .error .overflow else .ok p

/--
Source (`cosine_similarity` and `vector_length`): after the length
assertion the code computes `dot = Σ (av * bv) as f64` and the two squared
norms `Σ (vi * vi) as f64` (the `i8` products are taken before widening;
the `f64` conversions and, for all realistic signature lengths, the `f64`
sums are exact).  The value returned by the source is
`dot / (sqrt sa * sqrt sb)`; this model returns the triple
`(dot, sa, sb)` of exactly-computed integers from which that `f64` value
is formed.
-/
def cosineParts (a b : List ℤ) : Except RErr (ℤ × ℤ × ℤ) :=
  if a.length ≠ b.length then .error .assertFail
  else do
    let prods ← emapM (fun p => i8mul p.1 p.2) (a.zip b)
    let sqa ← emapM (fun v => i8mul v v) a
    let sqb ← emapM (fun v => i8mul v v) b
    .ok (prods.sum, sqa.sum, sqb.sum)

/-- Modelled from the spec: the classic median of a group of diffs
("sort, average of two middle elements if the count is even, else the
middle element; empty group ⇒ median 0"), as an exact rational. -/
def classicMedianQ (vec : List ℤ) : ℚ :=
  let s := vec.insertionSort (· ≤ ·)
  if vec = [] then 0
  else if vec.length % 2 = 0 then
    ((s.getD (vec.length / 2 - 1) 0 : ℤ) + (s.getD (vec.length / 2) 0 : ℤ) : ℚ) / 2
  else ((s.getD (vec.length / 2) 0 : ℤ) : ℚ)

theorem satU8_natCast (n : ℕ) (h : n ≤ 255) : satU8 ((n : ℕ) : ℚ) = n := by
  rw [satU8]
  rcases Nat.eq_zero_or_pos n with h0 | h0
  · subst h0; simp
  · rw [if_neg (not_le.mpr (by positivity))]
    rw [Int.floor_natCast]
    simp only [Int.toNat_natCast]
    omega


theorem truncQ_zero : truncQ 0 = 0 := by
  rw [truncQ]
  norm_num

theorem truncQ_intCast (k : ℤ) : truncQ ((k : ℤ) : ℚ) = k := by
  rw [truncQ]
  split
  · rw [Int.ceil_intCast]
  · rw [Int.floor_intCast]

/--
Claim C1: the claim states that the pixel coordinate assigned by the Grid
Point Placer to lattice point `(gx, gy)` is
`lower + g * floor((upper - lower) / grid_size)` along each axis.  The code
(`grid_points`, src/lib.rs line 180) computes `g * floor((upper - lower) /
grid_size)` WITHOUT adding the `lower` crop offset: for the bounds
`lower_x = lower_y = 5`, `upper_x = upper_y = 25` and `grid_size = 2`, the
lattice point `(1, 1)` is assigned `(10, 10)`, whereas the claim requires
`(5 + 1 * ((25 - 5) / 2), ...) = (15, 15)`.  (This also contradicts the
source's own comment, which says the cropped image is divided into the
grid, and the spec's data-model invariant that grid points lie inside
`Bounds`.)
-/
theorem grid_points_omit_lower_offset :
    lookupKey (grid_points ⟨5, 25, 5, 25⟩ 2) (1, 1) = some (10, 10) ∧
    (5 + 1 * ((25 - 5) / 2 : ℕ), 5 + 1 * ((25 - 5) / 2 : ℕ)) = ((15 : ℕ), (15 : ℕ)) ∧
    ((10 : ℕ), (10 : ℕ)) ≠ ((15 : ℕ), (15 : ℕ)) := by
  decide

/--
Claim C4: the claim states that `cosine_similarity` returns `0.0` (rather
than `NaN`) whenever one of the two equal-length vectors has Euclidean norm
zero.  The code has no such special case: on two all-zero vectors (the
shape of the zero-norm signatures the spec discusses, length 544) it
computes dot product `0`, squared norms `0` and `0`, and then returns
`0.0 / (sqrt 0.0 * sqrt 0.0) = 0.0 / 0.0`, which is IEEE-754 `NaN`, not
`0.0`.
-/
theorem cosine_zero_norm_is_nan :
    cosineParts (List.replicate 544 0) (List.replicate 544 0) = .ok (0, 0, 0) := by
  set_option maxRecDepth 40000 in decide

/--
Claim C5: the claim states that a buffer whose length is not a multiple of
`4 * width`, or `width == 0`, makes the signature computation fail fast
with an `InvalidDimensions` error.  The code has no dimension check at all:
on the 5-byte buffer `[1,2,3,4,9]` with `width = 1` it reads
`rgba_buffer[5]` out of bounds (a panic), and with `width = 0` on a
non-empty buffer its outer loop never advances `idx` and runs forever.
No `InvalidDimensions` kind exists anywhere in the source.
-/
theorem grayscale_no_dimension_check :
    grayscale_buffer [1, 2, 3, 4, 9] 1 = .error .oob ∧
    grayscale_buffer [1, 2, 3, 4] 0 = .error .diverge := by
  constructor
  · decide
  · decide

/--
Claim C7: if the activity list of an axis sums to zero (all entries are
zero, activity values being nonnegative), then for any crop fraction in
`[0, 1/2]` the threshold is zero, both walks of `get_bounds` halt
immediately without any out-of-bounds access, and the bounds returned are
`lower = 0` and `upper = len - 1`.
-/
theorem get_bounds_zero_activity (ds : List ℤ) (crop : ℚ)
    (hne : ds ≠ []) (hnn : ∀ v ∈ ds, 0 ≤ v) (hz : ds.sum = 0)
    (hc0 : 0 ≤ crop) (hc1 : crop ≤ mkRat 1 2) :
    get_bounds ds crop = .ok (0, ds.length - 1) := by
  have hlen : ¬ (ds.length = 0) := by
    intro hc
    exact hne (List.length_eq_zero.mp hc)
  have hthr : truncQ (round32 (qmul (round32 ((ds.sum : ℤ) : ℚ)) crop)) = 0 := by
    rw [hz]
    rw [show (((0 : ℤ) : ℚ)) = 0 by norm_num, round32_zero, qmul_eq, zero_mul,
      round32_zero, truncQ_zero]
  have hwl : walkLow ds 0 (ds.length + 1) 0 0 = .ok 0 := by
    rw [walkLow, if_neg (lt_irrefl 0)]
  have hwu : walkUp ds 0 (ds.length + 1) 0 (ds.length - 1) = .ok (ds.length - 1) := by
    rw [walkUp, if_neg (lt_irrefl 0)]
  rw [get_bounds, if_neg hlen]
  rw [show ds.sum = 0 from hz] at hthr ⊢
  simp only []
  rw [hthr, hwl, hwu]
  rfl

theorem get_bounds_zero_activity_witness :
    get_bounds [0, 0, 0, 0] (mkRat 1 20) = .ok (0, 3) :=
  get_bounds_zero_activity [0, 0, 0, 0] (mkRat 1 20) (by decide) (by decide) (by decide)
    (by decide) (by decide)


/--
Claim C6: the Grayscale Reducer's per-pixel luminance equals the byte
obtained by averaging the R, G, B channels with truncating integer
division by 3 and then multiplying that average by `a/255` in (binary32)
floating point and truncating; in particular `alpha = 255` yields the RGB
average unchanged and `alpha = 0` yields 0 regardless of color.
-/
theorem pixel_gray_spec (r g b a : ℕ)
    (hr : r ≤ 255) (hg : g ≤ 255) (hb : b ≤ 255) (ha : a ≤ 255) :
    pixel_gray r g b a =
      satU8 (round32 ((((r + g + b) / 3 : ℕ) : ℚ) * round32 (((a : ℕ) : ℚ) / 255))) ∧
    (a = 255 → pixel_gray r g b a = (r + g + b) / 3) ∧
    (a = 0 → pixel_gray r g b a = 0) := by
  have havg : (r + g + b) / 3 ≤ 255 := by omega
  have h1 : round32 ((((r + g + b) / 3 : ℕ) : ℚ)) = (((r + g + b) / 3 : ℕ) : ℚ) :=
    round32_natCast _ (le_trans havg (by norm_num))
  have h2 : round32 ((a : ℕ) : ℚ) = ((a : ℕ) : ℚ) :=
    round32_natCast a (le_trans ha (by norm_num))
  have h3 : round32 ((255 : ℕ) : ℚ) = ((255 : ℕ) : ℚ) :=
    round32_natCast 255 (by norm_num)
  refine ⟨?_, ?_, ?_⟩
  · rw [pixel_gray]
    rw [h1, h2, h3, qdiv_eq, qmul_eq]
    norm_num
  · intro hc
    subst hc
    rw [pixel_gray]
    rw [h1, h2, qdiv_eq]
    rw [show (((255 : ℕ) : ℚ)) / ((255 : ℕ) : ℚ) = 1 by norm_num]
    rw [round32_one, qmul_eq, mul_one, h1]
    exact satU8_natCast _ havg
  · intro hc
    subst hc
    rw [pixel_gray]
    rw [h1, h2, h3, qdiv_eq]
    rw [show (((0 : ℕ) : ℚ)) / ((255 : ℕ) : ℚ) = 0 by norm_num]
    rw [round32_zero, qmul_eq, mul_zero, round32_zero]
    rw [satU8]
    norm_num

theorem pixel_gray_spec_witness :
    (10 ≤ 255 ∧ 20 ≤ 255 ∧ 30 ≤ 255 ∧ 255 ≤ 255 ∧ 0 ≤ 255) ∧
    pixel_gray 10 20 30 255 = 20 ∧ pixel_gray 10 20 30 0 = 0 := by
  refine ⟨by decide, ?_, ?_⟩
  · have h := (pixel_gray_spec 10 20 30 255 (by decide) (by decide) (by decide)
      (by decide)).2.1 rfl
    exact h.trans (by norm_num)
  · exact (pixel_gray_spec 10 20 30 0 (by decide) (by decide) (by decide)
      (by decide)).2.2 rfl

/-- The group a nonzero diff belongs to: the "darker" partition component
for negative diffs, the "lighter" one otherwise (the same partition of the
nonzero diffs that `get_thresholds` takes its medians over). -/
def groupOf (v : ℤ) (raw_diffs : List (List ℤ)) : List ℤ :=
  let p := (raw_diffs.flatten.filter (fun d => d ≠ 0)).partition (fun d => d < 0)
  if v < 0 then p.1 else p.2

/--
Claim C3: `compute_diff` collapses a raw difference to exactly 0 precisely
when its absolute value is at most 2 (a fixed constant, independent of any
tuning parameter), and the quantization step of `compute_signature` maps
every nonzero diff to `±2` (sign preserved) exactly when its magnitude is
at least the magnitude of its group's median (the thresholds produced by
`get_thresholds`), and to `±1` otherwise; zero diffs stay 0.
-/
theorem quantizer_diff_collapse :
    (∀ me other : ℕ, me ≤ 255 → other ≤ 255 →
      compute_diff me other =
        if ((me : ℤ) - (other : ℤ)).natAbs ≤ 2 then 0 else (me : ℤ) - (other : ℤ)) ∧
    (∀ raw_diffs : List (List ℤ), ∀ v ∈ raw_diffs.flatten,
      quantize (get_thresholds raw_diffs).1 (get_thresholds raw_diffs).2 v =
        if v = 0 then 0
        else if (get_median (groupOf v raw_diffs)).natAbs ≤ v.natAbs then 2 * v.sign
        else v.sign) := by
  constructor
  · intro me other _ _
    rfl
  · intro rds v _
    rcases lt_trichotomy v 0 with hv | hv | hv
    · have h0 : ¬ (v = 0) := by omega
      have h1 : ¬ (v > 0) := by omega
      simp only [quantize, collapse, get_thresholds, groupOf, if_neg h0, if_neg h1,
        if_pos hv]
    · subst hv
      rfl
    · have h0 : ¬ (v = 0) := by omega
      have h2 : ¬ (v < 0) := by omega
      simp only [quantize, collapse, get_thresholds, groupOf, if_pos hv, if_neg h0,
        if_neg h2]

theorem quantizer_diff_collapse_witness :
    ((5 : ℤ) ∈ ([[5, -7, 3]] : List (List ℤ)).flatten ∧ (10 : ℕ) ≤ 255 ∧ (9 : ℕ) ≤ 255) ∧
    quantize (get_thresholds [[5, -7, 3]]).1 (get_thresholds [[5, -7, 3]]).2 5 = 2 ∧
    compute_diff 10 9 = 0 := by
  refine ⟨by decide, ?_, ?_⟩
  · have h := quantizer_diff_collapse.2 [[5, -7, 3]] 5 (by decide)
    exact h.trans (by decide)
  · have h := quantizer_diff_collapse.1 10 9 (by decide) (by decide)
    exact h.trans (by decide)


theorem tdiv_two_eq_truncQ (n : ℤ) : Int.tdiv n 2 = truncQ ((n : ℚ) / 2) := by
  rcases le_or_lt 0 n with h | h
  · have hn : (0 : ℚ) ≤ (n : ℚ) := by exact_mod_cast h
    rw [truncQ, if_neg (not_lt.mpr (div_nonneg hn (by norm_num)))]
    rw [show ((2 : ℚ)) = ((2 : ℕ) : ℚ) by norm_num, Rat.floor_intCast_div_natCast]
    exact Int.tdiv_eq_ediv h (by norm_num)
  · have hn : ((n : ℚ)) < 0 := by exact_mod_cast h
    have hq : ((n : ℚ)) / 2 < 0 := div_neg_of_neg_of_pos hn (by norm_num)
    rw [truncQ, if_pos hq]
    have hrw : ((n : ℚ)) / 2 = -((((-n : ℤ)) : ℚ) / 2) := by push_cast; ring
    rw [hrw, Int.ceil_neg]
    rw [show ((2 : ℚ)) = ((2 : ℕ) : ℚ) by norm_num, Rat.floor_intCast_div_natCast]
    rw [show (((2 : ℕ)) : ℤ) = 2 by norm_num]
    rw [← Int.tdiv_eq_ediv (by omega : (0 : ℤ) ≤ -n) (by norm_num : (0 : ℤ) ≤ 2)]
    rw [Int.neg_tdiv, neg_neg]

/--
Claim C8 (counterexample): the claim states that each group threshold is the
classic median of the group — for an even count, the (exact) average of the
two middle elements.  On the raw-diff input `[[3, 4]]` the light group is
`[3, 4]`; its classic median is `7/2`, but `get_thresholds` (via
`get_median`, which divides in `i16` arithmetic) returns `(3 + 4) / 2 = 3`.
-/
theorem get_median_truncates_even_average :
    get_thresholds [[3, 4]] = (0, 3) ∧
    classicMedianQ [3, 4] = mkRat 7 2 ∧ ((3 : ℤ) : ℚ) ≠ mkRat 7 2 := by
  have hs : (([3, 4] : List ℤ).insertionSort (· ≤ ·)) = [3, 4] := by decide
  refine ⟨by decide, ?_, ?_⟩
  · rw [classicMedianQ]
    simp only [hs]
    rw [if_neg (by decide : ¬ ([3, 4] : List ℤ) = [])]
    rw [if_pos (by decide : ([3, 4] : List ℤ).length % 2 = 0)]
    norm_num [List.getD_cons_zero, List.getD_cons_succ, Rat.mkRat_eq_div]
  · rw [Rat.mkRat_eq_div]
    norm_num

/--
Claim C8 (amended): the group threshold computed by `get_median` equals the
classic median of the group truncated toward zero: for an odd count the
middle element of the sorted group, for an even count the `i16`-truncating
integer average `(a + b) / 2` of the two middle elements (the exact average
rounded toward zero), and 0 for an empty group.
-/
theorem get_median_eq_trunc_classic (vec : List ℤ) :
    get_median vec = truncQ (classicMedianQ vec) := by
  by_cases hemp : vec = []
  · subst hemp
    decide
  · by_cases hpar : vec.length % 2 = 0
    · simp only [get_median, classicMedianQ, if_neg hemp, if_pos hpar]
      rw [tdiv_two_eq_truncQ]
      congr 1
      push_cast
      ring
    · simp only [get_median, classicMedianQ, if_neg hemp, if_neg hpar]
      exact (truncQ_intCast _).symm


theorem emapM_ok_of_forall {α β : Type} (f : α → Except RErr β) :
    ∀ l : List α, (∀ x ∈ l, ∃ y, f x = .ok y) → ∃ r, emapM f l = .ok r := by
  intro l
  induction l with
  | nil => intro _; exact ⟨[], rfl⟩
  | cons a l ih =>
      intro h
      obtain ⟨y, hy⟩ := h a (List.mem_cons_self a l)
      obtain ⟨r, hr⟩ := ih (fun x hx => h x (List.mem_cons_of_mem a hx))
      refine ⟨y :: r, ?_⟩
      rw [emapM, hy, hr]
      rfl

theorem emapM_ok_forall₂ {α β : Type} (f : α → Except RErr β) :
    ∀ (l : List α) (r : List β), emapM f l = .ok r →
      List.Forall₂ (fun a b => f a = .ok b) l r := by
  intro l
  induction l with
  | nil =>
      intro r h
      rw [emapM] at h
      cases h
      exact List.Forall₂.nil
  | cons a l ih =>
      intro r h
      rw [emapM] at h
      cases hfa : f a with
      | error e => rw [hfa] at h; cases h
      | ok b =>
          rw [hfa] at h
          cases hml : emapM f l with
          | error e => rw [hml] at h; cases h
          | ok r0 =>
              rw [hml] at h
              cases h
              exact List.Forall₂.cons hfa (ih r0 hml)

theorem forall₂_map_eq {α β γ : Type} {R : α → β → Prop} {g : β → γ} {g' : α → γ} :
    ∀ {l : List α} {r : List β}, List.Forall₂ R l r → (∀ a b, R a b → g b = g' a) →
      r.map g = l.map g' := by
  intro l r h hg
  induction h with
  | nil => rfl
  | cons hab _ ih => simp only [List.map_cons, ih, hg _ _ hab]

theorem length_filterMap_isSome {α β : Type} (f : α → Option β) :
    ∀ l : List α, (l.filterMap f).length = (l.filter (fun x => (f x).isSome)).length := by
  intro l
  induction l with
  | nil => rfl
  | cons a l ih =>
      rw [List.filterMap_cons, List.filter_cons]
      cases hfa : f a with
      | none => simpa [hfa] using ih
      | some b => simpa [hfa] using ih

theorem quantize_bounds (dark light v : ℤ) :
    -2 ≤ quantize dark light v ∧ quantize dark light v ≤ 2 := by
  rw [quantize]
  have hs : -1 ≤ v.sign ∧ v.sign ≤ 1 := by
    rcases v with (_ | n) | n
    · simp [Int.sign]
    · simp [Int.sign]
    · simp [Int.sign]
  split
  · rw [collapse]; split <;> omega
  · split
    · rw [collapse]; split <;> omega
    · omega

/--
Claim C10: `cosine_similarity` forms its element products (and the squares
inside the norms) in `i8` arithmetic before widening to `f64`.  For
equal-length vectors whose elements lie in `-2..=2` — and every quantized
signature element does lie in `-2..=2` — all those products lie in
`-4..=4`, so they are representable in `i8` and the computation never
overflows.  The guarantee does not extend to arbitrary `i8` inputs: on the
equal-length input `[127]`, `[127]` the product `127 * 127` overflows `i8`.
-/
theorem cosine_i8_products :
    (∀ a b : List ℤ, a.length = b.length →
      (∀ v ∈ a, -2 ≤ v ∧ v ≤ 2) → (∀ v ∈ b, -2 ≤ v ∧ v ≤ 2) →
      ∃ t, cosineParts a b = .ok t) ∧
    cosineParts [127] [127] = .error .overflow ∧
    (∀ avgs gs sig, compute_signature avgs gs = .ok sig →
      ∀ v ∈ sig, -2 ≤ v ∧ v ≤ 2) := by
  refine ⟨?_, by decide, ?_⟩
  · intro a b hlen hab hbb
    have hmul : ∀ x y : ℤ, -2 ≤ x → x ≤ 2 → -2 ≤ y → y ≤ 2 → ∃ z, i8mul x y = .ok z := by
      intro x y h1 h2 h3 h4
      refine ⟨x * y, ?_⟩
      rw [i8mul]
      rw [if_neg ?_]
      push_neg
      constructor <;> nlinarith
    obtain ⟨rp, hrp⟩ := emapM_ok_of_forall (fun p : ℤ × ℤ => i8mul p.1 p.2) (a.zip b)
      (by
        intro x hx
        obtain ⟨hx1, hx2⟩ := List.of_mem_zip hx
        exact hmul x.1 x.2 (hab _ hx1).1 (hab _ hx1).2 (hbb _ hx2).1 (hbb _ hx2).2)
    obtain ⟨ra, hra⟩ := emapM_ok_of_forall (fun v : ℤ => i8mul v v) a
      (fun v hv => hmul v v (hab _ hv).1 (hab _ hv).2 (hab _ hv).1 (hab _ hv).2)
    obtain ⟨rb, hrb⟩ := emapM_ok_of_forall (fun v : ℤ => i8mul v v) b
      (fun v hv => hmul v v (hbb _ hv).1 (hbb _ hv).2 (hbb _ hv).1 (hbb _ hv).2)
    refine ⟨(rp.sum, ra.sum, rb.sum), ?_⟩
    rw [cosineParts, if_neg (by omega)]
    rw [hrp, hra, hrb]
    rfl
  · intro avgs gs sig h v hv
    rw [compute_signature] at h
    cases hm : emapM (rawPointDiffs avgs) (enumPts gs) with
    | error e => rw [hm] at h; cases h
    | ok rds =>
        rw [hm] at h
        cases h
        rw [List.mem_flatten] at hv
        obtain ⟨row, hrow, hvrow⟩ := hv
        rw [List.mem_map] at hrow
        obtain ⟨ns, _, hns⟩ := hrow
        rw [← hns] at hvrow
        rw [List.mem_map] at hvrow
        obtain ⟨w, _, hw⟩ := hvrow
        rw [← hw]
        exact quantize_bounds _ _ w

theorem cosine_i8_products_witness :
    (([2, -1] : List ℤ).length = ([0, 2] : List ℤ).length ∧
      (∀ v ∈ ([2, -1] : List ℤ), -2 ≤ v ∧ v ≤ 2) ∧
      (∀ v ∈ ([0, 2] : List ℤ), -2 ≤ v ∧ v ≤ 2)) ∧
    ∃ t, cosineParts [2, -1] [0, 2] = .ok t := by
  refine ⟨⟨by decide, by decide, by decide⟩, ?_⟩
  exact cosine_i8_products.1 [2, -1] [0, 2] (by decide) (by decide) (by decide)


theorem exc_bind_ok {α β : Type} (x : Except RErr α) (f : α → Except RErr β) (b : β)
    (h : (x >>= f) = .ok b) : ∃ a, x = .ok a ∧ f a = .ok b := by
  cases x with
  | error e => cases h
  | ok a => exact ⟨a, rfl, h⟩

/-- The lattice-key list of `grid_points`, `x` outer, `y` inner. -/
def gridKeys (gs : ℕ) : List (ℤ × ℤ) :=
  (List.range' 1 (gs - 1)).flatMap (fun (x : ℕ) =>
    (List.range' 1 (gs - 1)).map (fun (y : ℕ) => ((x : ℤ), (y : ℤ))))

theorem grid_points_keys (b : Bounds) (gs : ℕ) :
    (grid_points b gs).map Prod.fst = gridKeys gs := by
  rw [grid_points, gridKeys, List.map_flatMap]
  congr 1
  funext x
  rw [List.map_map]
  rfl

theorem grid_averages_keys (pixels : List (List ℕ)) (pts : List ((ℤ × ℤ) × (ℕ × ℕ)))
    (b : Bounds) (avgs : List ((ℤ × ℤ) × ℕ)) (h : grid_averages pixels pts b = .ok avgs) :
    avgs.map Prod.fst = pts.map Prod.fst := by
  rw [grid_averages] at h
  refine forall₂_map_eq (emapM_ok_forall₂ _ _ _ h) ?_
  intro p q hpq
  rw [gaPoint] at hpq
  cases hpa : pointAvg pixels (squareEdge b) p.2.1 p.2.2 with
  | error e => rw [hpa] at hpq; cases hpq
  | ok v =>
      rw [hpa] at hpq
      cases hpq
      rfl

theorem lookupKey_isSome_iff {β : Type} :
    ∀ (l : List ((ℤ × ℤ) × β)) (k : ℤ × ℤ),
      (lookupKey l k).isSome = true ↔ k ∈ l.map Prod.fst := by
  intro l
  induction l with
  | nil => intro k; simp [lookupKey]
  | cons p rest ih =>
      intro k
      obtain ⟨k0, v0⟩ := p
      rw [lookupKey]
      by_cases hk : k = k0
      · subst hk
        simp
      · rw [if_neg hk]
        rw [ih]
        simp [hk]

theorem compute_signature_length (avgs : List ((ℤ × ℤ) × ℕ)) (gs : ℕ) (sig : List ℤ)
    (h : compute_signature avgs gs = .ok sig) :
    sig.length = ((enumPts gs).map (fun gc =>
      (nbrOffsets.filter (fun d =>
        (lookupKey avgs (gc.1 + d.1, gc.2 + d.2)).isSome)).length)).sum := by
  rw [compute_signature] at h
  cases hm : emapM (rawPointDiffs avgs) (enumPts gs) with
  | error e => rw [hm] at h; cases h
  | ok rds =>
      rw [hm] at h
      cases h
      have hmaps : rds.map (fun ns =>
          (ns.map (quantize (get_thresholds rds).1 (get_thresholds rds).2)).length) =
          (enumPts gs).map (fun gc => (nbrOffsets.filter (fun d =>
            (lookupKey avgs (gc.1 + d.1, gc.2 + d.2)).isSome)).length) := by
        refine forall₂_map_eq (emapM_ok_forall₂ _ _ _ hm) ?_
        intro gc ns hr
        rw [rawPointDiffs] at hr
        cases hsl : lookupKey avgs gc with
        | none => rw [hsl] at hr; cases hr
        | some g0 =>
            rw [hsl] at hr
            cases hr
            rw [List.length_map, length_filterMap_isSome]
            congr 1
            refine List.filter_congr ?_
            intro d _
            cases lookupKey avgs (gc.1 + d.1, gc.2 + d.2) <;> rfl
      rw [List.length_flatten, List.map_map]
      rw [show (List.length ∘ fun ns : List ℤ =>
        ns.map (quantize (get_thresholds rds).1 (get_thresholds rds).2)) =
        (fun ns : List ℤ =>
          (ns.map (quantize (get_thresholds rds).1 (get_thresholds rds).2)).length) from rfl]
      rw [hmaps]

/--
Claim C2: for every RGBA buffer of positive width whose length is a
multiple of `4 * width`, whenever the default signature computation runs to
completion (the non-degenerate case: no out-of-bounds sampling), the
resulting vector has exactly 544 elements: the default grid size 10 yields
81 lattice points, of which the 4 corners contribute 3 neighbor diffs each,
the 28 edge points 5 each, and the 49 interior points 8 each.
-/
theorem default_signature_length (buf : List ℕ) (width : ℕ)
    (hw : 0 < width) (hdvd : 4 * width ∣ buf.length) (sig : List ℤ)
    (h : get_buffer_signature buf width = .ok sig) : sig.length = 544 := by
  rw [get_buffer_signature] at h
  obtain ⟨gray, hg, h⟩ := exc_bind_ok _ _ _ h
  replace h : compute_from_gray gray DEFAULT_CROP DEFAULT_GRID_SIZE = .ok sig := h
  rw [compute_from_gray, compute_from_gray_ord] at h
  obtain ⟨bounds, hb, h⟩ := exc_bind_ok _ _ _ h
  replace h : grid_averages gray (grid_points bounds DEFAULT_GRID_SIZE) bounds >>=
      (fun averages => compute_signature averages DEFAULT_GRID_SIZE) = .ok sig := h
  obtain ⟨avgs, ha, h⟩ := exc_bind_ok _ _ _ h
  replace h : compute_signature avgs DEFAULT_GRID_SIZE = .ok sig := h
  have hk : avgs.map Prod.fst = gridKeys DEFAULT_GRID_SIZE := by
    rw [grid_averages_keys gray _ bounds avgs ha, grid_points_keys]
  have hlook : ∀ k, (lookupKey avgs k).isSome = decide (k ∈ gridKeys DEFAULT_GRID_SIZE) := by
    intro k
    by_cases hm : k ∈ gridKeys DEFAULT_GRID_SIZE
    · rw [decide_eq_true hm]
      exact (lookupKey_isSome_iff avgs k).mpr (by rw [hk]; exact hm)
    · rw [decide_eq_false hm]
      cases hb2 : (lookupKey avgs k).isSome
      · rfl
      · exact absurd (by rw [← hk]; exact (lookupKey_isSome_iff avgs k).mp hb2) hm
  rw [compute_signature_length avgs DEFAULT_GRID_SIZE sig h]
  simp only [hlook]
  set_option maxRecDepth 10000 in decide

theorem isOkE_exists {α : Type} (x : Except RErr α) (h : isOkE x = true) :
    ∃ a, x = .ok a := by
  cases x with
  | ok a => exact ⟨a, rfl⟩
  | error e => rw [isOkE] at h; cases h

set_option maxRecDepth 200000 in
theorem default_signature_length_witness :
    ((0 : ℕ) < 21 ∧ 4 * 21 ∣ (List.replicate 1764 (0 : ℕ)).length) ∧
    ∃ sig, get_buffer_signature (List.replicate 1764 0) 21 = .ok sig ∧ sig.length = 544 := by
  refine ⟨⟨by decide, by rw [List.length_replicate]; decide⟩, ?_⟩
  have hok : isOkE (get_buffer_signature (List.replicate 1764 0) 21) = true := by
    decide
  obtain ⟨sig, hx⟩ := isOkE_exists _ hok
  exact ⟨sig, hx,
    default_signature_length (List.replicate 1764 0) 21 (by decide)
      (by rw [List.length_replicate]; decide) sig hx⟩


theorem readPix_err (pixels : List (List ℕ)) (x y : ℤ) (e : RErr)
    (h : readPix pixels x y = .error e) : e = .oob := by
  rw [readPix] at h
  split at h
  · cases h
    rfl
  · split at h
    · cases h
      rfl
    · cases h

theorem emapM_error_unique {α β : Type} (f : α → Except RErr β) (E : RErr)
    (hf : ∀ a e, f a = .error e → e = E) :
    ∀ (l : List α) (e : RErr), emapM f l = .error e → e = E := by
  intro l
  induction l with
  | nil =>
      intro e h
      rw [emapM] at h
      cases h
  | cons a l ih =>
      intro e h
      rw [emapM] at h
      cases hfa : f a with
      | error e2 =>
          rw [hfa] at h
          cases h
          exact hf a e hfa
      | ok b =>
          rw [hfa] at h
          cases hml : emapM f l with
          | error e2 =>
              rw [hml] at h
              cases h
              exact ih e hml
          | ok r =>
              rw [hml] at h
              cases h

theorem pixel_average_err (pixels : List (List ℕ)) (x y : ℤ) (e : RErr)
    (h : pixel_average pixels x y = .error e) : e = .oob := by
  rw [pixel_average] at h
  cases hm : emapM (fun d => readPix pixels (x + d.1) (y + d.2)) boxOffsets with
  | error e2 =>
      rw [hm] at h
      cases h
      exact emapM_error_unique _ _ (fun d e3 hd => readPix_err _ _ _ _ hd) _ _ hm
  | ok vals =>
      rw [hm] at h
      cases h

theorem pointAvg_err (pixels : List (List ℕ)) (se : ℤ) (px py : ℕ) (e : RErr)
    (h : pointAvg pixels se px py = .error e) : e = .oob := by
  rw [pointAvg] at h
  cases hm : emapM (fun d => pixel_average pixels ((px : ℤ) + d.1) ((py : ℤ) + d.2))
      (seOffsets se) with
  | error e2 =>
      rw [hm] at h
      cases h
      exact emapM_error_unique _ _ (fun d e3 hd => pixel_average_err _ _ _ _ hd) _ _ hm
  | ok boxes =>
      rw [hm] at h
      cases h

theorem gaPoint_err (pixels : List (List ℕ)) (b : Bounds) (p : (ℤ × ℤ) × (ℕ × ℕ))
    (e : RErr) (h : gaPoint pixels b p = .error e) : e = .oob := by
  rw [gaPoint] at h
  cases hp : pointAvg pixels (squareEdge b) p.2.1 p.2.2 with
  | error e2 =>
      rw [hp] at h
      cases h
      exact pointAvg_err _ _ _ _ _ hp
  | ok v =>
      rw [hp] at h
      cases h

theorem emapM_char {α β : Type} (f : α → Except RErr β) (E : RErr) (d : β)
    (hf : ∀ a e, f a = .error e → e = E) :
    ∀ l : List α, emapM f l =
      if l.all (fun a => isOkE (f a)) then .ok (l.map (fun a => valOf d (f a)))
      else .error E := by
  intro l
  induction l with
  | nil => rfl
  | cons a l ih =>
      rw [emapM, ih]
      cases hfa : f a with
      | error e2 =>
          have he : e2 = E := hf a e2 hfa
          subst he
          rw [List.all_cons, hfa]
          rfl
      | ok b =>
          rw [List.all_cons, hfa]
          by_cases hall : l.all (fun a => isOkE (f a))
          · rw [if_pos hall, if_pos (by simp only [isOkE, Bool.true_and]; exact hall)]
            rw [List.map_cons, hfa]
            rfl
          · rw [if_neg hall, if_neg (by simp only [isOkE, Bool.true_and]; exact hall)]
            rfl

theorem grid_averages_char (pixels : List (List ℕ)) (pts : List ((ℤ × ℤ) × (ℕ × ℕ)))
    (b : Bounds) :
    grid_averages pixels pts b =
      if pts.all (fun p => isOkE (gaPoint pixels b p)) then
        .ok (pts.map (fun p => valOf ((0, 0), 0) (gaPoint pixels b p)))
      else .error .oob := by
  rw [grid_averages]
  exact emapM_char _ _ _ (gaPoint_err pixels b) pts

theorem perm_all_congr {α : Type} {l₁ l₂ : List α} (h : l₁.Perm l₂) (p : α → Bool) :
    l₁.all p = l₂.all p := by
  cases hb : l₂.all p
  · rw [List.all_eq_false] at hb ⊢
    obtain ⟨x, hx, hpx⟩ := hb
    exact ⟨x, h.mem_iff.mpr hx, hpx⟩
  · rw [List.all_eq_true] at hb ⊢
    intro x hx
    exact hb x (h.mem_iff.mp hx)

theorem lookupKey_perm {β : Type} {l₁ l₂ : List ((ℤ × ℤ) × β)} (h : l₁.Perm l₂) :
    ∀ k : ℤ × ℤ, (l₁.map Prod.fst).Nodup → lookupKey l₁ k = lookupKey l₂ k := by
  induction h with
  | nil => intro k _; rfl
  | cons x p ih =>
      intro k hn
      obtain ⟨x0, v0⟩ := x
      rw [lookupKey, lookupKey]
      by_cases hk : k = x0
      · rw [if_pos hk, if_pos hk]
      · rw [if_neg hk, if_neg hk]
        refine ih k ?_
        rw [List.map_cons, List.nodup_cons] at hn
        exact hn.2
  | swap x y l =>
      intro k hn
      obtain ⟨x0, v0⟩ := x
      obtain ⟨y0, w0⟩ := y
      rw [List.map_cons, List.map_cons, List.nodup_cons] at hn
      have hxy : y0 ≠ x0 := by
        intro hc
        exact hn.1 (by rw [hc]; exact List.mem_cons_self _ _)
      rw [lookupKey, lookupKey, lookupKey, lookupKey]
      by_cases hky : k = y0 <;> by_cases hkx : k = x0
      · exact absurd (hky ▸ hkx : y0 = x0) hxy
      · simp [hky, hkx, hxy]
      · simp [hky, hkx, Ne.symm hxy]
      · simp [hky, hkx]
  | trans p₁ p₂ ih₁ ih₂ =>
      intro k hn
      rw [ih₁ k hn, ih₂ k (((p₁.map Prod.fst).nodup_iff).mp hn)]

theorem emapM_congr {α β : Type} (f g : α → Except RErr β) :
    ∀ l : List α, (∀ a ∈ l, f a = g a) → emapM f l = emapM g l := by
  intro l
  induction l with
  | nil => intro _; rfl
  | cons a l ih =>
      intro h
      rw [emapM, emapM, h a (List.mem_cons_self a l), ih (fun x hx => h x (List.mem_cons_of_mem a hx))]

theorem compute_signature_lookup_congr (a₁ a₂ : List ((ℤ × ℤ) × ℕ)) (gs : ℕ)
    (h : ∀ k, lookupKey a₁ k = lookupKey a₂ k) :
    compute_signature a₁ gs = compute_signature a₂ gs := by
  rw [compute_signature, compute_signature]
  have hrp : ∀ gc ∈ enumPts gs, rawPointDiffs a₁ gc = rawPointDiffs a₂ gc := by
    intro gc _
    rw [rawPointDiffs, rawPointDiffs, h gc]
    simp only [h]
  rw [emapM_congr _ _ _ hrp]

/--
Claim C9: the default signature computation is deterministic.  The only
internal source of nondeterminism in the source is the unspecified
iteration order of the `HashMap` of grid points (the second `HashMap` is
only read through `get`): for any two iteration orders `σ₁`, `σ₂` (any
functions producing a permutation of the entry list), the computed
signatures — including the error outcome, if any — are identical, so two
calls on identical arguments yield identical output vectors.
-/
theorem default_signature_order_independent (buf : List ℕ) (width : ℕ)
    (σ₁ σ₂ : List ((ℤ × ℤ) × (ℕ × ℕ)) → List ((ℤ × ℤ) × (ℕ × ℕ)))
    (h₁ : ∀ l, (σ₁ l).Perm l) (h₂ : ∀ l, (σ₂ l).Perm l) :
    get_buffer_signature_ord buf width σ₁ = get_buffer_signature_ord buf width σ₂ := by
  rw [get_buffer_signature_ord, get_buffer_signature_ord]
  cases hg : grayscale_buffer buf width with
  | error e => rfl
  | ok gray =>
  show compute_from_gray_ord gray DEFAULT_CROP DEFAULT_GRID_SIZE σ₁ =
    compute_from_gray_ord gray DEFAULT_CROP DEFAULT_GRID_SIZE σ₂
  rw [compute_from_gray_ord, compute_from_gray_ord]
  cases hb : crop_boundaries gray DEFAULT_CROP with
  | error e => rfl
  | ok bounds =>
  show (grid_averages gray (σ₁ (grid_points bounds DEFAULT_GRID_SIZE)) bounds >>=
      fun averages => compute_signature averages DEFAULT_GRID_SIZE) =
    (grid_averages gray (σ₂ (grid_points bounds DEFAULT_GRID_SIZE)) bounds >>=
      fun averages => compute_signature averages DEFAULT_GRID_SIZE)
  have hperm : (σ₁ (grid_points bounds DEFAULT_GRID_SIZE)).Perm
      (σ₂ (grid_points bounds DEFAULT_GRID_SIZE)) := (h₁ _).trans (h₂ _).symm
  rw [grid_averages_char, grid_averages_char,
    perm_all_congr hperm (fun p => isOkE (gaPoint gray bounds p))]
  by_cases hall : (σ₂ (grid_points bounds DEFAULT_GRID_SIZE)).all
      (fun p => isOkE (gaPoint gray bounds p))
  · rw [if_pos hall, if_pos hall]
    show compute_signature _ DEFAULT_GRID_SIZE = compute_signature _ DEFAULT_GRID_SIZE
    apply compute_signature_lookup_congr
    intro k
    refine lookupKey_perm (hperm.map _) k ?_
    have hkeys : ((σ₁ (grid_points bounds DEFAULT_GRID_SIZE)).map
        (fun p => valOf ((0, 0), 0) (gaPoint gray bounds p))).map Prod.fst =
        (σ₁ (grid_points bounds DEFAULT_GRID_SIZE)).map Prod.fst := by
      rw [List.map_map]
      refine List.map_congr_left ?_
      intro p hp
      have hok : isOkE (gaPoint gray bounds p) = true := by
        have hall₁ : (σ₁ (grid_points bounds DEFAULT_GRID_SIZE)).all
            (fun p => isOkE (gaPoint gray bounds p)) := by
          rw [perm_all_congr hperm]
          exact hall
        exact List.all_eq_true.mp hall₁ p hp
      rw [Function.comp]
      cases hga : gaPoint gray bounds p with
      | error e => rw [hga, isOkE] at hok; cases hok
      | ok q =>
          rw [gaPoint] at hga
          cases hpa : pointAvg gray (squareEdge bounds) p.2.1 p.2.2 with
          | error e => rw [hpa] at hga; cases hga
          | ok v =>
              rw [hpa] at hga
              cases hga
              rfl
    rw [hkeys]
    have hnd : ((grid_points bounds DEFAULT_GRID_SIZE).map Prod.fst).Nodup := by
      rw [grid_points_keys]
      decide
    exact (List.Perm.nodup_iff ((h₁ _).map Prod.fst)).mpr hnd
  · rw [if_neg hall, if_neg hall]

theorem default_signature_order_independent_witness :
    get_buffer_signature_ord [] 1 (fun l => l.reverse) =
      get_buffer_signature_ord [] 1 (fun l => l) :=
  default_signature_order_independent [] 1 (fun l => l.reverse) (fun l => l)
    (fun l => List.reverse_perm l) (fun l => List.Perm.refl l)

end ImageMatch
